import Mathlib

/-!
Verification of the celerentis job-pipeline web layer.

The definitions below are a shallow embedding of the TypeScript source:
* `src/apps/web/lib/types.ts` — the `Job`, `Project`, `UploadedFile` records
  and their status/stage enumerations (stage is one of eight string literals,
  project status one of four);
* `src/apps/web/lib/mocks/handlers.ts` — the mock database (`@mswjs/data`
  factory with `project` and `job` tables), its seed data, and the four
  handlers that read or mutate those two tables:
  `POST /api/projects`, `POST /api/projects/:id/files`,
  `POST /api/projects/:id/generate`, `GET /api/jobs/:id`;
* `src/apps/web/app/projects/new/page.tsx` — the `isStep2Valid` form check;
* `src/apps/web/app/api/projects/[id]/generate/route.ts` — the Next.js
  route that builds the form data forwarded to the backend.

Modelling conventions: the mock database state is the pair of the two table
row lists in insertion order (`@mswjs/data` iterates entities in insertion
order; `findFirst` is the first match, `update` rewrites the first match,
`create` appends and throws on a duplicate primary key, modelled as a guarded
no-op result `none`).  `Date.now()` / `new Date().toISOString()` /
`Math.random()` are runtime inputs and appear as explicit parameters
(`nowMs`, `nowIso`, and the Boolean `advance` standing for the draw
`Math.random() > 0.7`).  JavaScript numbers carrying progress are modelled
as exact rationals; the only arithmetic performed on them is
`Math.min(100, (i + 2) * 16.67)`, which is order-isomorphic to the float
computation because both are strictly monotone images of the integer `i`.
-/

namespace Celerentis

/-- The eight job stages of `Job.stage` in `lib/types.ts`. -/
inductive Stage
  | queued
  | parsing_financials
  | mining_documents
  | fetching_public_data
  | building_slides
  | finalizing
  | complete
  | error
deriving DecidableEq

/-- The four project statuses of `ProjectStatus` in `lib/types.ts`. -/
inductive ProjectStatus
  | queued
  | processing
  | complete
  | error
deriving DecidableEq

/-- The three file kinds of `UploadedFile.kind` in `lib/types.ts`. -/
inductive FileKind
  | template
  | financials
  | documents
deriving DecidableEq

/-- `UploadedFile` of `lib/types.ts` / the `files` array entries of the mock
`project` table. -/
structure UploadedFile where
  id : String
  name : String
  size : Nat
  kind : FileKind
deriving DecidableEq

/-- A row of the mock `project` table in `handlers.ts`. -/
structure Project where
  id : String
  name : String
  domain : Option String
  createdAt : String
  status : ProjectStatus
  costCents : Nat
  tags : List String
  files : List UploadedFile
  jobId : Option String
deriving DecidableEq

/-- A row of the mock `job` table in `handlers.ts`. -/
structure Job where
  id : String
  projectId : String
  stage : Stage
  progress : ℚ
  logs : List String
  createdAt : String
  updatedAt : String
deriving DecidableEq

/-- The mock database state: the two tables the job-lifecycle handlers touch,
rows in insertion order. -/
structure DB where
  projects : List Project
  jobs : List Job
deriving DecidableEq

/-- `db.<table>.update({ where, data })` of `@mswjs/data`: rewrite the first
row matching the predicate, leave everything else in place. -/
def updateFirst (p : α → Bool) (f : α → α) : List α → List α
  | [] => []
  | x :: xs => if p x then f x :: xs else x :: updateFirst p f xs

/-- The `stages` array of the `GET /api/jobs/:id` handler (`handlers.ts`),
in source order.  It deliberately omits `error`. -/
def stagesList : List Stage :=
  [.queued, .parsing_financials, .mining_documents, .fetching_public_data,
   .building_slides, .finalizing, .complete]

/-- JavaScript `stages.indexOf(stage)`: position in `stagesList`, `-1` when
absent (which happens only for `error`). -/
def jsIndexOf (s : Stage) : Int :=
  match stagesList.findIdx? (fun t => decide (t = s)) with
  | some n => (n : Int)
  | none => -1

/-- The string form of a stage, as interpolated into the handler's
`Stage: ${newStage}` log line. -/
def stageName : Stage → String
  | .queued => "queued"
  | .parsing_financials => "parsing_financials"
  | .mining_documents => "mining_documents"
  | .fetching_public_data => "fetching_public_data"
  | .building_slides => "building_slides"
  | .finalizing => "finalizing"
  | .complete => "complete"
  | .error => "error"

/-- JavaScript `s.endsWith(t)`: `t` is a suffix of `s`. -/
def strEndsWith (s t : String) : Bool :=
  t.data.isSuffixOf s.data

/-- JavaScript `Math.min` on exact rationals. -/
def jsMin (a b : ℚ) : ℚ := if a ≤ b then a else b

/-- The file-kind classification of `POST /api/projects/:id/files`
(`handlers.ts`): `file.name.endsWith('.xlsx') ? 'financials' :
file.name.endsWith('.zip') ? 'documents' : 'template'`. -/
def kindOf (name : String) : FileKind :=
  if strEndsWith name ".xlsx" then .financials
  else if strEndsWith name ".zip" then .documents
  else .template

/-- `POST /api/projects` (`handlers.ts`): create a project with status
`queued`, empty tags/files and no job.  `pullPublicData` is parsed from the
form but the mock stores no such column, so the parameter is unused, as in
the source.  A duplicate primary key makes `@mswjs/data` throw; that branch
returns `none` and leaves the database untouched. -/
def createProjectHandler (name : String) (domain : Option String)
    (pullPublicData : Bool) (nowMs : Nat) (nowIso : String) (db : DB) :
    DB × Option Project :=
  let pid := "proj-" ++ toString nowMs
  if db.projects.any (fun p => p.id == pid) then (db, none)
  else
    let project : Project :=
      { id := pid, name := name, domain := domain, createdAt := nowIso,
        status := .queued, costCents := 0, tags := [], files := [],
        jobId := none }
    ({ db with projects := db.projects ++ [project] }, some project)

/-- `POST /api/projects/:id/files` (`handlers.ts`): classify each uploaded
file by name suffix and append the batch to the project's `files` column when
the project exists.  Each request file arrives as
(fresh id tag for `file-${Date.now()}-${Math.random()}`, name, size). -/
def uploadFilesHandler (projectId : String)
    (files : List (String × String × Nat)) (db : DB) :
    DB × List UploadedFile :=
  let uploaded : List UploadedFile := files.map (fun f =>
    { id := "file-" ++ f.1, name := f.2.1, size := f.2.2,
      kind := kindOf f.2.1 })
  match db.projects.find? (fun p => p.id == projectId) with
  | some _ =>
      let newProjects := updateFirst (fun p => p.id == projectId)
        (fun p => { p with files := p.files ++ uploaded }) db.projects
      ({ db with projects := newProjects }, uploaded)
  | none => (db, uploaded)

/-- `POST /api/projects/:id/generate` (`handlers.ts`): create the job
`job-${Date.now()}` with stage `queued`, progress 0 and log `['Job started']`,
point the project at it with status `processing`, and respond with the job
id.  A duplicate job primary key makes `@mswjs/data` throw; that branch
returns `none` and leaves the database untouched. -/
def generateHandler (projectId : String) (nowMs : Nat) (nowIso : String)
    (db : DB) : DB × Option String :=
  let jobId := "job-" ++ toString nowMs
  if db.jobs.any (fun j => j.id == jobId) then (db, none)
  else
    let job : Job :=
      { id := jobId, projectId := projectId, stage := .queued, progress := 0,
        logs := ["Job started"], createdAt := nowIso, updatedAt := nowIso }
    let db1 : DB := { db with jobs := db.jobs ++ [job] }
    let newProjects := updateFirst (fun p => p.id == projectId)
      (fun p => { p with jobId := some jobId, status := .processing })
      db1.projects
    let db2 : DB := { db1 with projects := newProjects }
    (db2, some jobId)

/-- `GET /api/jobs/:id` (`handlers.ts`): look the job up; absent → 404
(`none`).  For a non-terminal job the handler simulates pipeline progress
inside the read: when the random draw fires (`advance`, standing for
`Math.random() > 0.7`) and `currentIndex < stages.length - 1`, it rewrites
the job row with the next stage of `stagesList`, progress
`Math.min(100, (currentIndex + 2) * 16.67)`, the old log plus one
`Stage: ...` line, and a fresh `updatedAt`; if the new stage is `complete` it
also sets the first project whose `jobId` matches to status `complete`.
The response is the job record fetched before the rewrite.  (The handler
also computes an unused local `progress`; being dead code it is omitted.) -/
def statusHandler (jobId : String) (advance : Bool) (nowIso : String)
    (db : DB) : DB × Option Job :=
  match db.jobs.find? (fun j => j.id == jobId) with
  | none => (db, none)
  | some job =>
    if job.stage ≠ .complete ∧ job.stage ≠ .error then
      let currentIndex : Int := jsIndexOf job.stage
      if advance ∧ currentIndex < (stagesList.length : Int) - 1 then
        match stagesList[(currentIndex + 1).toNat]? with
        | some newStage =>
          let newLogs := job.logs ++ ["Stage: " ++ stageName newStage]
          let upd : Job → Job := fun j =>
            { j with stage := newStage,
                     progress := jsMin 100 (((currentIndex : ℚ) + 2) * 16.67),
                     logs := newLogs, updatedAt := nowIso }
          let newJobs := updateFirst (fun j => j.id == jobId) upd db.jobs
          let db1 : DB := { db with jobs := newJobs }
          let db2 : DB :=
            if newStage = .complete then
              let newProjects := updateFirst (fun p => p.jobId == some jobId)
                (fun p => { p with status := .complete }) db1.projects
              { db1 with projects := newProjects }
            else db1
          (db2, some job)
        | none => (db, some job)
      else (db, some job)
    else (db, some job)

/-- The seed row `proj-1` of the mock `project` table (`seedData` in
`handlers.ts`).  Timestamps are runtime values (`Date.now()` offsets); they
are named by their offsets and never inspected by any handler logic. -/
def proj1Seed : Project :=
  { id := "proj-1", name := "TechCorp Acquisition",
    domain := some "techcorp.com", createdAt := "t-2h",
    status := .complete, costCents := 2500,
    tags := ["acquisition", "tech", "saas"],
    files := [
      { id := "file-1", name := "financials.xlsx", size := 1024000,
        kind := .financials },
      { id := "file-2", name := "documents.zip", size := 5120000,
        kind := .documents }],
    jobId := some "job-1" }

/-- The seed row `proj-2` of the mock `project` table. -/
def proj2Seed : Project :=
  { id := "proj-2", name := "GreenEnergy Solutions",
    domain := some "greenenergy.com", createdAt := "t-30m",
    status := .processing, costCents := 1800,
    tags := ["energy", "sustainability"],
    files := [
      { id := "file-3", name := "template.pptx", size := 2048000,
        kind := .template },
      { id := "file-4", name := "financials.xlsx", size := 1536000,
        kind := .financials }],
    jobId := some "job-2" }

/-- The seed row `proj-3` of the mock `project` table. -/
def proj3Seed : Project :=
  { id := "proj-3", name := "MedTech Innovations",
    domain := some "medtech.com", createdAt := "t-5m",
    status := .error, costCents := 0,
    tags := ["healthcare", "medtech"],
    files := [
      { id := "file-5", name := "template.pptx", size := 3072000,
        kind := .template }],
    jobId := some "job-3" }

/-- The seed rows of the mock `project` table, in insertion order. -/
def seedProjects : List Project := [proj1Seed, proj2Seed, proj3Seed]

/-- The seed row `job-1` of the mock `job` table (`seedData` in
`handlers.ts`). -/
def job1Seed : Job :=
  { id := "job-1", projectId := "proj-1", stage := .complete,
    progress := 100,
    logs := ["Job started", "Parsing financial data...",
             "Mining documents...", "Fetching public data...",
             "Building slides...", "Finalizing presentation...",
             "Job completed successfully"],
    createdAt := "t-2h", updatedAt := "t-1h" }

/-- The seed row `job-2` of the mock `job` table. -/
def job2Seed : Job :=
  { id := "job-2", projectId := "proj-2", stage := .building_slides,
    progress := 75,
    logs := ["Job started", "Parsing financial data...",
             "Mining documents...", "Fetching public data...",
             "Building slides..."],
    createdAt := "t-30m", updatedAt := "t-5m" }

/-- The seed row `job-3` of the mock `job` table. -/
def job3Seed : Job :=
  { id := "job-3", projectId := "proj-3", stage := .error,
    progress := 25,
    logs := ["Job started", "Parsing financial data...",
             "Error: Invalid file format detected"],
    createdAt := "t-5m", updatedAt := "t-2m" }

/-- The seed rows of the mock `job` table, in insertion order. -/
def seedJobs : List Job := [job1Seed, job2Seed, job3Seed]

/-- The database right after `seedData()` runs. -/
def seedDB : DB := { projects := seedProjects, jobs := seedJobs }

/-- `isStep2Valid` of `app/projects/new/page.tsx`: some uploaded file (with a
truthy name) has a name ending in `.pptx`.  A file with an empty name is
falsy in the source check and ends with no non-empty suffix, so names alone
carry the condition. -/
def isStep2Valid (fileNames : List String) : Bool :=
  fileNames.any (fun n => strEndsWith n ".pptx")

/-- The form data `app/api/projects/[id]/generate/route.ts` builds for the
backend `POST /jobs` call: hard-coded `company_name`, `website` and
`pull_public_data` values and the bundled `examples/template.pptx` file. -/
structure BackendJobForm where
  company_name : String
  website : String
  pull_public_data : String
  template_name : String
deriving DecidableEq

/-- `POST` of `app/api/projects/[id]/generate/route.ts`, up to the backend
call: when the bundled template file can be read the route forwards the
constant form data; when it cannot, the route answers 400 with a validation
message and never contacts the backend (so no job id is created).  The
route receives only the project id; no submitted company name, website or
flag reaches it. -/
def generateRoutePOST (templateFileReadable : Bool) :
    Except (Nat × String) BackendJobForm :=
  if templateFileReadable then
    .ok { company_name := "Test Company", website := "https://example.com",
          pull_public_data := "true", template_name := "template.pptx" }
  else
    .error (400, "Template file not found. Please upload a PPTX template.")

/-- One observable mutation step of the mock database: an application of any
of the four handlers that touch the `project` or `job` tables (every other
handler in `handlers.ts` only reads unrelated tables). -/
inductive Step : DB → DB → Prop
  | createProject (name : String) (domain : Option String) (pull : Bool)
      (nowMs : Nat) (nowIso : String) (db : DB) :
      Step db (createProjectHandler name domain pull nowMs nowIso db).1
  | uploadFiles (projectId : String) (files : List (String × String × Nat))
      (db : DB) :
      Step db (uploadFilesHandler projectId files db).1
  | generate (projectId : String) (nowMs : Nat) (nowIso : String) (db : DB) :
      Step db (generateHandler projectId nowMs nowIso db).1
  | status (jobId : String) (advance : Bool) (nowIso : String) (db : DB) :
      Step db (statusHandler jobId advance nowIso db).1

/-- Zero or more handler steps. -/
def Steps : DB → DB → Prop := Relation.ReflTransGen Step

/-- A database state the running mock can actually be in: reachable from the
seeded state by handler steps. -/
def Reachable (db : DB) : Prop := Steps seedDB db

/-- Position of a stage in the forward pipeline order of `stagesList`;
`error` sits outside that list and is given the sentinel rank 7 (it is
absorbing, so its rank never measures an actual transition). -/
def stageRank : Stage → Nat
  | .queued => 0
  | .parsing_financials => 1
  | .mining_documents => 2
  | .fetching_public_data => 3
  | .building_slides => 4
  | .finalizing => 5
  | .complete => 6
  | .error => 7

/-- The stage immediately following a given one in `stagesList`; terminal
stages map to themselves (the handler never advances them). -/
def succStage : Stage → Stage
  | .queued => .parsing_financials
  | .parsing_financials => .mining_documents
  | .mining_documents => .fetching_public_data
  | .fetching_public_data => .building_slides
  | .building_slides => .finalizing
  | .finalizing => .complete
  | .complete => .complete
  | .error => .error

/-- The bound the reachability invariant keeps on a job's persisted progress:
one 16.67% increment per completed stage, capped at 100. -/
def progressCap (s : Stage) : ℚ :=
  jsMin 100 (((stageRank s : ℚ) + 1) * 16.67)

/-- The index bookkeeping the advance branch of `GET /api/jobs/:id` performs
on a non-terminal stage, in closed form. -/
lemma stage_index_data (s : Stage) (hc : s ≠ .complete) (he : s ≠ .error) :
    jsIndexOf s = (stageRank s : Int) ∧
    (stageRank s : Int) < (stagesList.length : Int) - 1 ∧
    ((stageRank s : Int) + 1).toNat = stageRank s + 1 ∧
    stagesList[stageRank s + 1]? = some (succStage s) ∧
    stageRank (succStage s) = stageRank s + 1 ∧
    succStage s ≠ .error := by
  cases s <;> first | exact absurd rfl hc | exact absurd rfl he | decide

/-- The progress arithmetic the advance branch performs on a non-terminal
stage: the freshly written progress is exactly the cap of the new stage, at
least the cap of the old one, and stays within `[0, 100]`. -/
lemma stage_progress_data (s : Stage) (hc : s ≠ .complete) (he : s ≠ .error) :
    jsMin 100 (((stageRank s : ℚ) + 2) * 16.67) = progressCap (succStage s) ∧
    progressCap s ≤ jsMin 100 (((stageRank s : ℚ) + 2) * 16.67) ∧
    (0 : ℚ) ≤ jsMin 100 (((stageRank s : ℚ) + 2) * 16.67) ∧
    jsMin 100 (((stageRank s : ℚ) + 2) * 16.67) ≤ 100 := by
  cases s <;> first
    | exact absurd rfl hc
    | exact absurd rfl he
    | norm_num [progressCap, jsMin, stageRank, succStage]

lemma updateFirst_of_find?_none (p : α → Bool) (f : α → α) (xs : List α)
    (h : xs.find? p = none) : updateFirst p f xs = xs := by
  induction xs with
  | nil => rfl
  | cons x xs ih =>
    by_cases hp : p x
    · rw [List.find?_cons_of_pos _ hp] at h; cases h
    · rw [List.find?_cons_of_neg _ hp] at h
      simp [updateFirst, hp, ih h]

/-- `find?` and `updateFirst` with the same predicate decompose a list at
the first match. -/
lemma updateFirst_split (p : α → Bool) (f : α → α) (xs : List α) (x : α)
    (h : xs.find? p = some x) :
    ∃ l r, xs = l ++ x :: r ∧ (∀ y ∈ l, p y = false) ∧ p x = true ∧
      updateFirst p f xs = l ++ f x :: r := by
  induction xs with
  | nil => simp at h
  | cons z zs ih =>
    by_cases hp : p z
    · rw [List.find?_cons_of_pos _ hp] at h
      cases h
      exact ⟨[], zs, rfl, by simp, hp, by simp [updateFirst, hp]⟩
    · rw [List.find?_cons_of_neg _ hp] at h
      obtain ⟨l, r, hxs, hl, hpx, hupd⟩ := ih h
      refine ⟨z :: l, r, by simp [hxs], ?_, hpx, by simp [updateFirst, hp, hupd]⟩
      intro y hy
      rcases List.mem_cons.mp hy with rfl | hy
      · simpa using hp
      · exact hl y hy

lemma mem_updateFirst {p : α → Bool} {f : α → α} {xs : List α} {y : α}
    (h : y ∈ updateFirst p f xs) :
    y ∈ xs ∨ ∃ x ∈ xs, p x = true ∧ y = f x := by
  induction xs with
  | nil => simp [updateFirst] at h
  | cons z zs ih =>
    by_cases hp : p z
    · simp only [updateFirst, if_pos hp] at h
      rcases List.mem_cons.mp h with rfl | h
      · exact Or.inr ⟨z, List.mem_cons_self z zs, hp, rfl⟩
      · exact Or.inl (List.mem_cons_of_mem _ h)
    · simp only [updateFirst, if_neg hp] at h
      rcases List.mem_cons.mp h with rfl | h
      · exact Or.inl (List.mem_cons_self _ _)
      · rcases ih h with h' | ⟨x, hx, hpx, rfl⟩
        · exact Or.inl (List.mem_cons_of_mem _ h')
        · exact Or.inr ⟨x, List.mem_cons_of_mem _ hx, hpx, rfl⟩

lemma mem_updateFirst_self {p : α → Bool} {f : α → α} {xs : List α} {x : α}
    (hx : x ∈ xs) :
    ∃ y ∈ updateFirst p f xs, y = x ∨ (p x = true ∧ y = f x) := by
  induction xs with
  | nil => simp at hx
  | cons z zs ih =>
    by_cases hp : p z
    · rcases List.mem_cons.mp hx with rfl | hx
      · exact ⟨f x, by simp [updateFirst, hp], Or.inr ⟨hp, rfl⟩⟩
      · exact ⟨x, by simp [updateFirst, hp, hx], Or.inl rfl⟩
    · rcases List.mem_cons.mp hx with rfl | hx
      · exact ⟨x, by simp [updateFirst, hp], Or.inl rfl⟩
      · obtain ⟨y, hy, hyx⟩ := ih hx
        exact ⟨y, by simp [updateFirst, hp, hy], hyx⟩

/-- `updateFirst` keeps a pairwise relation provided rewriting the (first)
matched element preserves that element's relations with the rest of the
list, in both directions. -/
lemma pairwise_updateFirst {R : α → α → Prop} {p : α → Bool} {f : α → α}
    {xs : List α}
    (hR : ∀ x ∈ xs, p x = true →
      (∀ y ∈ xs, R x y → R (f x) y) ∧ (∀ y ∈ xs, R y x → R y (f x)))
    (h : xs.Pairwise R) : (updateFirst p f xs).Pairwise R := by
  induction xs with
  | nil => exact h
  | cons z zs ih =>
    rcases List.pairwise_cons.mp h with ⟨hz, hzs⟩
    by_cases hp : p z
    · simp only [updateFirst, if_pos hp]
      refine List.pairwise_cons.mpr ⟨?_, hzs⟩
      intro y hy
      exact (hR z (List.mem_cons_self _ _) hp).1 y (List.mem_cons_of_mem _ hy)
        (hz y hy)
    · simp only [updateFirst, if_neg hp]
      refine List.pairwise_cons.mpr ⟨?_, ?_⟩
      · intro y hy
        rcases mem_updateFirst hy with hy' | ⟨x, hx, hpx, rfl⟩
        · exact hz y hy'
        · exact (hR x (List.mem_cons_of_mem _ hx) hpx).2 z
            (List.mem_cons_self _ _) (hz x hx)
      · refine ih ?_ hzs
        intro x hx hpx
        refine ⟨?_, ?_⟩
        · intro y hy
          exact (hR x (List.mem_cons_of_mem _ hx) hpx).1 y
            (List.mem_cons_of_mem _ hy)
        · intro y hy
          exact (hR x (List.mem_cons_of_mem _ hx) hpx).2 y
            (List.mem_cons_of_mem _ hy)

/-- In a list pairwise-distinct under a key, the key identifies the element. -/
lemma pairwise_ne_inj {β : Type} {key : α → β} {xs : List α}
    (h : xs.Pairwise (fun a b => key a ≠ key b))
    {a b : α} (ha : a ∈ xs) (hb : b ∈ xs) (hk : key a = key b) : a = b := by
  by_contra hne
  exact List.Pairwise.forall (fun x y hxy => (Ne.symm hxy : _)) h ha hb hne hk

/-- What the reachability invariant says about one job row: progress is a
rational in `[0, 100]`, bounded by the stage's progress cap whenever the
stage is not `error`, and the log is never empty. -/
def JobOK (j : Job) : Prop :=
  0 ≤ j.progress ∧ j.progress ≤ 100 ∧
  (j.stage ≠ .error → j.progress ≤ progressCap j.stage) ∧ j.logs ≠ []

/-- The reachability invariant of the mock database: every job row is
well-formed, primary keys are unique in both tables, distinct projects never
point at the same job, every project's `jobId` refers to an existing job row,
and a `complete` project always points at a `complete` job. -/
def Inv (db : DB) : Prop :=
  (∀ j ∈ db.jobs, JobOK j) ∧
  db.jobs.Pairwise (fun a b => a.id ≠ b.id) ∧
  db.projects.Pairwise (fun a b => a.id ≠ b.id) ∧
  db.projects.Pairwise (fun a b => a.jobId = none ∨ a.jobId ≠ b.jobId) ∧
  (∀ p ∈ db.projects, p.jobId = none ∨ ∃ j ∈ db.jobs, p.jobId = some j.id) ∧
  (∀ p ∈ db.projects, p.status = .complete →
    ∃ j ∈ db.jobs, p.jobId = some j.id ∧ j.stage = .complete)

lemma find?_id_eq {xs : List Job} {jid : String} {j : Job}
    (h : xs.find? (fun j => j.id == jid) = some j) : j.id = jid := by
  have := List.find?_some h
  simpa using this

lemma inv_seed : Inv seedDB := by
  refine ⟨?_, by decide, by decide, by decide, by decide, by decide⟩
  intro j hj
  simp only [seedDB, seedJobs, List.mem_cons, List.not_mem_nil, or_false] at hj
  rcases hj with rfl | rfl | rfl
  · exact ⟨by norm_num [job1Seed], by norm_num [job1Seed],
      fun h => by norm_num [job1Seed, progressCap, jsMin, stageRank],
      by simp [job1Seed]⟩
  · exact ⟨by norm_num [job2Seed], by norm_num [job2Seed],
      fun h => by norm_num [job2Seed, progressCap, jsMin, stageRank],
      by simp [job2Seed]⟩
  · exact ⟨by norm_num [job3Seed], by norm_num [job3Seed],
      fun h => absurd (show job3Seed.stage = .error from rfl) h,
      by simp [job3Seed]⟩

/-- The job rewrite the advance branch of `GET /api/jobs/:id` applies to the
found job `job`, expressed with the stage rank instead of `jsIndexOf`. -/
def advancedJob (job : Job) (nowIso : String) : Job → Job := fun j =>
  { j with stage := succStage job.stage,
           progress := jsMin 100 (((stageRank job.stage : ℚ) + 2) * 16.67),
           logs := job.logs ++ ["Stage: " ++ stageName (succStage job.stage)],
           updatedAt := nowIso }

/-- The whole database after the advance branch of `GET /api/jobs/:id` ran
for the found job `job` under id `jobId`. -/
def advancedDB (jobId : String) (job : Job) (nowIso : String) (db : DB) : DB :=
  { projects :=
      if succStage job.stage = .complete then
        updateFirst (fun p => p.jobId == some jobId)
          (fun p => { p with status := ProjectStatus.complete }) db.projects
      else db.projects,
    jobs := updateFirst (fun j => j.id == jobId) (advancedJob job nowIso)
      db.jobs }

/-- The advance branch of `GET /api/jobs/:id` in deterministic form: when
the job is found, non-terminal, and the random draw fires, the handler
produces exactly `advancedDB` and responds with the pre-rewrite record. -/
lemma statusHandler_advance {db : DB} {job : Job} (jobId nowIso : String)
    (hfind : db.jobs.find? (fun j => j.id == jobId) = some job)
    (hc : job.stage ≠ .complete) (he : job.stage ≠ .error) :
    statusHandler jobId true nowIso db =
      (advancedDB jobId job nowIso db, some job) := by
  obtain ⟨hidx, hlt, htoNat, hget, hranks, hserr⟩ :=
    stage_index_data job.stage hc he
  simp only [statusHandler, hfind]
  rw [if_pos ⟨hc, he⟩, if_pos ⟨by simp, by rw [hidx]; exact hlt⟩]
  rw [hidx, htoNat, hget]
  have hcast : ((stageRank job.stage : Int) : ℚ) = (stageRank job.stage : ℚ) := by
    push_cast; rfl
  simp only [advancedDB, advancedJob, hcast]
  split_ifs <;> rfl

/-- Full characterization of `GET /api/jobs/:id`: it either behaves as a
pure lookup, or — for a found, non-terminal job when the random draw fires —
rewrites the job row to its successor stage (and, on reaching `complete`,
marks the first matching project complete) while responding with the record
fetched before the rewrite. -/
lemma statusHandler_cases (jobId : String) (advance : Bool) (nowIso : String)
    (db : DB) :
    statusHandler jobId advance nowIso db =
      (db, db.jobs.find? (fun j => j.id == jobId)) ∨
    ∃ job, db.jobs.find? (fun j => j.id == jobId) = some job ∧
      job.stage ≠ .complete ∧ job.stage ≠ .error ∧ advance = true ∧
      statusHandler jobId advance nowIso db =
        (advancedDB jobId job nowIso db, some job) := by
  rcases hfind : db.jobs.find? (fun j => j.id == jobId) with _ | job
  · exact Or.inl (by simp [statusHandler, hfind])
  by_cases hc : job.stage = .complete
  · exact Or.inl (by simp [statusHandler, hfind, hc])
  by_cases he : job.stage = .error
  · exact Or.inl (by simp [statusHandler, hfind, he])
  rcases hadv : advance with _ | _
  · refine Or.inl ?_
    simp only [statusHandler, hfind]
    rw [if_pos ⟨hc, he⟩, if_neg (by simp)]
  exact Or.inr ⟨job, hfind, hc, he, rfl,
    statusHandler_advance jobId nowIso hfind hc he⟩

/-- How one handler step treats one pre-existing job row: either it is left
untouched, or (only in the advance branch of the status handler) it moves to
the successor stage with progress bumped to the new stage's cap and exactly
one log line appended. -/
def trackRel (j j' : Job) : Prop :=
  j'.id = j.id ∧
  (j' = j ∨
    (j.stage ≠ .complete ∧ j.stage ≠ .error ∧ j'.stage = succStage j.stage ∧
     j.progress ≤ j'.progress ∧ j'.progress = progressCap j'.stage ∧
     ∃ line, j'.logs = j.logs ++ [line]))

lemma track_refl (j : Job) : trackRel j j := ⟨rfl, Or.inl rfl⟩

lemma any_id_false {xs : List Project} {pid : String}
    (h : ¬xs.any (fun p => p.id == pid) = true) :
    ∀ p ∈ xs, p.id ≠ pid := by
  rw [Bool.not_eq_true, List.any_eq_false] at h
  intro p hp
  simpa using h p hp

lemma any_jobId_false {xs : List Job} {jid : String}
    (h : ¬xs.any (fun j => j.id == jid) = true) :
    ∀ j ∈ xs, j.id ≠ jid := by
  rw [Bool.not_eq_true, List.any_eq_false] at h
  intro j hj
  simpa using h j hj

lemma createProject_track {db : DB} (hInv : Inv db) (name : String)
    (dom : Option String) (pull : Bool) (nowMs : Nat) (nowIso : String) :
    Inv (createProjectHandler name dom pull nowMs nowIso db).1 ∧
    ∀ j ∈ db.jobs,
      ∃ j' ∈ (createProjectHandler name dom pull nowMs nowIso db).1.jobs,
        trackRel j j' := by
  obtain ⟨hJ, hJP, hPP, hJI, hPR, hPC⟩ := hInv
  by_cases hdup : db.projects.any (fun p => p.id == ("proj-" ++ toString nowMs)) = true
  · simp only [createProjectHandler, if_pos hdup]
    exact ⟨⟨hJ, hJP, hPP, hJI, hPR, hPC⟩, fun j hj => ⟨j, hj, track_refl j⟩⟩
  have hfresh := any_id_false hdup
  simp only [createProjectHandler, if_neg hdup]
  refine ⟨⟨hJ, hJP, ?_, ?_, ?_, ?_⟩, fun j hj => ⟨j, hj, track_refl j⟩⟩
  · refine List.pairwise_append.mpr ⟨hPP, List.pairwise_singleton _ _, ?_⟩
    intro a ha b hb
    rcases List.mem_singleton.mp hb with rfl
    exact hfresh a ha
  · refine List.pairwise_append.mpr ⟨hJI, List.pairwise_singleton _ _, ?_⟩
    intro a ha b hb
    rcases List.mem_singleton.mp hb with rfl
    rcases h : a.jobId with _ | x
    · exact Or.inl rfl
    · exact Or.inr (by simp)
  · intro p hp
    rcases List.mem_append.mp hp with hp | hp
    · exact hPR p hp
    · rcases List.mem_singleton.mp hp with rfl
      exact Or.inl rfl
  · intro p hp hps
    rcases List.mem_append.mp hp with hp | hp
    · exact hPC p hp hps
    · rcases List.mem_singleton.mp hp with rfl
      simp at hps

lemma upload_track {db : DB} (hInv : Inv db) (pid : String)
    (files : List (String × String × Nat)) :
    Inv (uploadFilesHandler pid files db).1 ∧
    ∀ j ∈ db.jobs, ∃ j' ∈ (uploadFilesHandler pid files db).1.jobs,
      trackRel j j' := by
  obtain ⟨hJ, hJP, hPP, hJI, hPR, hPC⟩ := hInv
  rcases hfind : db.projects.find? (fun p => p.id == pid) with _ | p0
  · simp only [uploadFilesHandler, hfind]
    exact ⟨⟨hJ, hJP, hPP, hJI, hPR, hPC⟩, fun j hj => ⟨j, hj, track_refl j⟩⟩
  simp only [uploadFilesHandler, hfind]
  refine ⟨⟨hJ, hJP, ?_, ?_, ?_, ?_⟩, fun j hj => ⟨j, hj, track_refl j⟩⟩
  · exact pairwise_updateFirst
      (fun x hx hpx => ⟨fun y hy h => h, fun y hy h => h⟩) hPP
  · exact pairwise_updateFirst
      (fun x hx hpx => ⟨fun y hy h => h, fun y hy h => h⟩) hJI
  · intro p hp
    rcases mem_updateFirst hp with hp | ⟨x, hx, hpx, rfl⟩
    · exact hPR p hp
    · exact hPR x hx
  · intro p hp hps
    rcases mem_updateFirst hp with hp | ⟨x, hx, hpx, rfl⟩
    · exact hPC p hp hps
    · exact hPC x hx hps

/-- The job row created by `POST /api/projects/:id/generate`. -/
def newJob (pid : String) (nowMs : Nat) (nowIso : String) : Job :=
  { id := "job-" ++ toString nowMs, projectId := pid, stage := .queued,
    progress := 0, logs := ["Job started"], createdAt := nowIso,
    updatedAt := nowIso }

lemma newJob_ok (pid : String) (nowMs : Nat) (nowIso : String) :
    JobOK (newJob pid nowMs nowIso) := by
  refine ⟨by norm_num [newJob], by norm_num [newJob], fun _ => ?_,
    by simp [newJob]⟩
  norm_num [newJob, progressCap, jsMin, stageRank]

lemma generate_track {db : DB} (hInv : Inv db) (pid : String) (nowMs : Nat)
    (nowIso : String) :
    Inv (generateHandler pid nowMs nowIso db).1 ∧
    ∀ j ∈ db.jobs, ∃ j' ∈ (generateHandler pid nowMs nowIso db).1.jobs,
      trackRel j j' := by
  obtain ⟨hJ, hJP, hPP, hJI, hPR, hPC⟩ := hInv
  by_cases hdup : db.jobs.any (fun j => j.id == ("job-" ++ toString nowMs)) = true
  · simp only [generateHandler, if_pos hdup]
    exact ⟨⟨hJ, hJP, hPP, hJI, hPR, hPC⟩, fun j hj => ⟨j, hj, track_refl j⟩⟩
  have hfresh := any_jobId_false hdup
  simp only [generateHandler, if_neg hdup]
  refine ⟨⟨?_, ?_, ?_, ?_, ?_, ?_⟩,
    fun j hj => ⟨j, List.mem_append.mpr (Or.inl hj), track_refl j⟩⟩
  · intro j hj
    rcases List.mem_append.mp hj with hj | hj
    · exact hJ j hj
    · rcases List.mem_singleton.mp hj with rfl
      exact newJob_ok pid nowMs nowIso
  · refine List.pairwise_append.mpr ⟨hJP, List.pairwise_singleton _ _, ?_⟩
    intro a ha b hb
    rcases List.mem_singleton.mp hb with rfl
    exact hfresh a ha
  · exact pairwise_updateFirst
      (fun x hx hpx => ⟨fun y hy h => h, fun y hy h => h⟩) hPP
  · refine pairwise_updateFirst (fun x hx hpx => ⟨?_, ?_⟩) hJI
    · intro y hy h
      refine Or.inr ?_
      show some ("job-" ++ toString nowMs) ≠ y.jobId
      rcases hPR y hy with hy0 | ⟨jw, hjw, hy0⟩
      · rw [hy0]; simp
      · rw [hy0]
        simpa using fun hEq => hfresh jw hjw hEq.symm
    · intro y hy h
      rcases hPR y hy with hy0 | ⟨jw, hjw, hy0⟩
      · exact Or.inl hy0
      · refine Or.inr ?_
        rw [hy0]
        show some jw.id ≠ some ("job-" ++ toString nowMs)
        simpa using fun hEq => hfresh jw hjw hEq
  · intro p hp
    rcases mem_updateFirst hp with hp | ⟨x, hx, hpx, rfl⟩
    · rcases hPR p hp with h0 | ⟨jw, hjw, h0⟩
      · exact Or.inl h0
      · exact Or.inr ⟨jw, List.mem_append.mpr (Or.inl hjw), h0⟩
    · exact Or.inr ⟨newJob pid nowMs nowIso,
        List.mem_append.mpr (Or.inr (List.mem_singleton.mpr rfl)), rfl⟩
  · intro p hp hps
    rcases mem_updateFirst hp with hp | ⟨x, hx, hpx, rfl⟩
    · obtain ⟨jw, hjw, h1, h2⟩ := hPC p hp hps
      exact ⟨jw, List.mem_append.mpr (Or.inl hjw), h1, h2⟩
    · simp at hps

lemma status_track {db : DB} (hInv : Inv db) (jid : String) (advance : Bool)
    (nowIso : String) :
    Inv (statusHandler jid advance nowIso db).1 ∧
    ∀ j ∈ db.jobs, ∃ j' ∈ (statusHandler jid advance nowIso db).1.jobs,
      trackRel j j' := by
  obtain ⟨hJ, hJP, hPP, hJI, hPR, hPC⟩ := hInv
  rcases statusHandler_cases jid advance nowIso db with h |
    ⟨job, hfind, hc, he, hadv, h⟩
  · rw [h]
    exact ⟨⟨hJ, hJP, hPP, hJI, hPR, hPC⟩, fun j hj => ⟨j, hj, track_refl j⟩⟩
  rw [h]
  have hjid : job.id = jid := find?_id_eq hfind
  have hjob_mem : job ∈ db.jobs := List.mem_of_find?_eq_some hfind
  obtain ⟨hpeq, hple, hp0, hp100⟩ := stage_progress_data job.stage hc he
  obtain ⟨l, r, hxs, hl, hpj, hupd⟩ :=
    updateFirst_split (fun j => j.id == jid) (advancedJob job nowIso)
      db.jobs job hfind
  have hjobs : (advancedDB jid job nowIso db).jobs =
      l ++ advancedJob job nowIso job :: r := by
    simp only [advancedDB]
    exact hupd
  have htrack : ∀ j ∈ db.jobs,
      ∃ j' ∈ (advancedDB jid job nowIso db).jobs, trackRel j j' := by
    intro j hj
    rw [hjobs]
    rw [hxs] at hj
    rcases List.mem_append.mp hj with hj | hj
    · exact ⟨j, List.mem_append.mpr (Or.inl hj), track_refl j⟩
    rcases List.mem_cons.mp hj with heq | hj
    · rw [heq]
      refine ⟨advancedJob job nowIso job,
        List.mem_append.mpr (Or.inr (List.mem_cons_self _ _)), rfl,
        Or.inr ⟨hc, he, rfl, ?_, ?_, ?_⟩⟩
      · exact le_trans ((hJ job hjob_mem).2.2.1 he) hple
      · exact hpeq
      · exact ⟨"Stage: " ++ stageName (succStage job.stage), rfl⟩
    · exact ⟨j, List.mem_append.mpr (Or.inr (List.mem_cons_of_mem _ hj)),
        track_refl j⟩
  have hkeep : ∀ jw ∈ db.jobs, jw.stage = .complete →
      jw ∈ (advancedDB jid job nowIso db).jobs := by
    intro jw hjw hjc
    obtain ⟨jw', hjw', hid, hdisj⟩ := htrack jw hjw
    rcases hdisj with rfl | ⟨hc', _⟩
    · exact hjw'
    · exact absurd hjc hc'
  have hids : ∀ jw ∈ db.jobs,
      ∃ jw' ∈ (advancedDB jid job nowIso db).jobs, jw'.id = jw.id := by
    intro jw hjw
    obtain ⟨jw', hjw', hid, _⟩ := htrack jw hjw
    exact ⟨jw', hjw', hid⟩
  have hJ' : ∀ j' ∈ (advancedDB jid job nowIso db).jobs, JobOK j' := by
    intro j' hj'
    rw [hjobs] at hj'
    rcases List.mem_append.mp hj' with hj' | hj'
    · exact hJ j' (by rw [hxs]; exact List.mem_append.mpr (Or.inl hj'))
    rcases List.mem_cons.mp hj' with rfl | hj'
    · exact ⟨hp0, hp100, fun _ => le_of_eq hpeq, by simp [advancedJob]⟩
    · exact hJ j' (by
        rw [hxs]
        exact List.mem_append.mpr (Or.inr (List.mem_cons_of_mem _ hj')))
  have hJP' : (advancedDB jid job nowIso db).jobs.Pairwise
      (fun a b => a.id ≠ b.id) := by
    simp only [advancedDB]
    exact pairwise_updateFirst
      (fun x hx hpx => ⟨fun y hy h => h, fun y hy h => h⟩) hJP
  refine ⟨⟨hJ', hJP', ?_, ?_, ?_, ?_⟩, htrack⟩ <;>
    by_cases hsc : succStage job.stage = .complete
  · -- project-id uniqueness, completion branch
    simp only [advancedDB, if_pos hsc]
    exact pairwise_updateFirst
      (fun x hx hpx => ⟨fun y hy h => h, fun y hy h => h⟩) hPP
  · simp only [advancedDB, if_neg hsc]
    exact hPP
  · -- jobId injectivity, completion branch
    simp only [advancedDB, if_pos hsc]
    exact pairwise_updateFirst
      (fun x hx hpx => ⟨fun y hy h => h, fun y hy h => h⟩) hJI
  · simp only [advancedDB, if_neg hsc]
    exact hJI
  · -- jobId reference, completion branch
    intro p hp
    simp only [advancedDB, if_pos hsc] at hp
    rcases mem_updateFirst hp with hp | ⟨x, hx, hpx, rfl⟩
    · rcases hPR p hp with h0 | ⟨jw, hjw, h0⟩
      · exact Or.inl h0
      · obtain ⟨jw', hjw', hid⟩ := hids jw hjw
        exact Or.inr ⟨jw', hjw', by rw [h0, hid]⟩
    · rcases hPR x hx with h0 | ⟨jw, hjw, h0⟩
      · exact Or.inl h0
      · obtain ⟨jw', hjw', hid⟩ := hids jw hjw
        exact Or.inr ⟨jw', hjw', by rw [h0, hid]⟩
  · intro p hp
    simp only [advancedDB, if_neg hsc] at hp
    rcases hPR p hp with h0 | ⟨jw, hjw, h0⟩
    · exact Or.inl h0
    · obtain ⟨jw', hjw', hid⟩ := hids jw hjw
      exact Or.inr ⟨jw', hjw', by rw [h0, hid]⟩
  · -- complete projects point at complete jobs, completion branch
    intro p hp hps
    simp only [advancedDB, if_pos hsc] at hp
    rcases mem_updateFirst hp with hp | ⟨x, hx, hpx, rfl⟩
    · obtain ⟨jw, hjw, h1, h2⟩ := hPC p hp hps
      exact ⟨jw, hkeep jw hjw h2, h1, h2⟩
    · have hxj : x.jobId = some jid := by simpa using hpx
      refine ⟨advancedJob job nowIso job, ?_, ?_, hsc⟩
      · rw [hjobs]
        exact List.mem_append.mpr (Or.inr (List.mem_cons_self _ _))
      · show x.jobId = some (advancedJob job nowIso job).id
        rw [hxj]
        simp [advancedJob, hjid]
  · intro p hp hps
    simp only [advancedDB, if_neg hsc] at hp
    obtain ⟨jw, hjw, h1, h2⟩ := hPC p hp hps
    exact ⟨jw, hkeep jw hjw h2, h1, h2⟩

lemma step_track {db db' : DB} (hInv : Inv db) (h : Step db db') :
    Inv db' ∧ ∀ j ∈ db.jobs, ∃ j' ∈ db'.jobs, trackRel j j' := by
  cases h with
  | createProject name dom pull nowMs nowIso db =>
      exact createProject_track hInv name dom pull nowMs nowIso
  | uploadFiles pid files db => exact upload_track hInv pid files
  | generate pid nowMs nowIso db => exact generate_track hInv pid nowMs nowIso
  | status jid advance nowIso db => exact status_track hInv jid advance nowIso

/-- How any number of handler steps treats one pre-existing job row: its id
is stable, its progress never decreases, its stage either stays put or moves
strictly forward in rank, its log only grows at the end, and a terminal
(`complete` or `error`) job is never touched again. -/
def multiRel (j j' : Job) : Prop :=
  j'.id = j.id ∧ j.progress ≤ j'.progress ∧
  (j'.stage = j.stage ∨ stageRank j.stage < stageRank j'.stage) ∧
  (∃ t, j'.logs = j.logs ++ t) ∧
  ((j.stage = .complete ∨ j.stage = .error) → j' = j)

lemma multiRel_refl (j : Job) : multiRel j j :=
  ⟨rfl, le_refl _, Or.inl rfl, ⟨[], (List.append_nil _).symm⟩, fun _ => rfl⟩

lemma stageRank_succ_gt (s : Stage) (hc : s ≠ .complete) (he : s ≠ .error) :
    stageRank s < stageRank (succStage s) := by
  have := (stage_index_data s hc he).2.2.2.2.1
  omega

lemma multiRel_trans_track {j k k' : Job} (h1 : multiRel j k)
    (h2 : trackRel k k') : multiRel j k' := by
  obtain ⟨hid, hprog, hstage, ⟨t, hlogs⟩, hterm⟩ := h1
  obtain ⟨hid', hdisj⟩ := h2
  rcases hdisj with heq | ⟨hc, he, hst, hp, hcap, ⟨line, hl⟩⟩
  · rw [heq]
    exact ⟨hid, hprog, hstage, ⟨t, hlogs⟩, hterm⟩
  · refine ⟨hid'.trans hid, le_trans hprog hp, ?_,
      ⟨t ++ [line], by rw [hl, hlogs, List.append_assoc]⟩, ?_⟩
    · right
      have h3 : stageRank k.stage < stageRank k'.stage := by
        rw [hst]
        exact stageRank_succ_gt k.stage hc he
      rcases hstage with heq | hlt
      · rw [← heq]
        exact h3
      · exact lt_trans hlt h3
    · intro hterm'
      have hk := hterm hterm'
      rcases hterm' with h' | h'
      · exact absurd (by rw [hk, h']) hc
      · exact absurd (by rw [hk, h']) he

lemma steps_track {db db' : DB} (hInv : Inv db) (h : Steps db db') :
    Inv db' ∧ ∀ j ∈ db.jobs, ∃ j' ∈ db'.jobs, multiRel j j' := by
  induction h with
  | refl => exact ⟨hInv, fun j hj => ⟨j, hj, multiRel_refl j⟩⟩
  | tail hsteps hstep ih =>
      obtain ⟨hInvMid, htr⟩ := ih
      obtain ⟨hInv', htr'⟩ := step_track hInvMid hstep
      refine ⟨hInv', fun j hj => ?_⟩
      obtain ⟨k, hk, h1⟩ := htr j hj
      obtain ⟨k', hk', h2⟩ := htr' k hk
      exact ⟨k', hk', multiRel_trans_track h1 h2⟩

/-- Every reachable mock-database state satisfies the invariant. -/
lemma reachable_inv {db : DB} (h : Reachable db) : Inv db :=
  (steps_track inv_seed h).1

/-- Pairing by job id across one handler step, for reachable states. -/
lemma step_pair {db db' : DB} (hdb : Reachable db) (hstep : Step db db') :
    ∀ j ∈ db.jobs, ∀ j' ∈ db'.jobs, j'.id = j.id → trackRel j j' := by
  intro j hj j' hj' hid
  obtain ⟨hInv', htr⟩ := step_track (reachable_inv hdb) hstep
  obtain ⟨k, hk, hrel⟩ := htr j hj
  have hjk : j' = k := pairwise_ne_inj hInv'.2.1 hj' hk (hid.trans hrel.1.symm)
  rw [hjk]
  exact hrel

/-- Pairing by job id across any number of handler steps, for reachable
states. -/
lemma steps_pair {db db' : DB} (hdb : Reachable db) (hsteps : Steps db db') :
    ∀ j ∈ db.jobs, ∀ j' ∈ db'.jobs, j'.id = j.id → multiRel j j' := by
  intro j hj j' hj' hid
  obtain ⟨hInv', htr⟩ := steps_track (reachable_inv hdb) hsteps
  obtain ⟨k, hk, hrel⟩ := htr j hj
  have hjk : j' = k := pairwise_ne_inj hInv'.2.1 hj' hk (hid.trans hrel.1.symm)
  rw [hjk]
  exact hrel

lemma status_snd (jobId : String) (advance : Bool) (nowIso : String)
    (db : DB) :
    (statusHandler jobId advance nowIso db).2 =
      db.jobs.find? (fun j => j.id == jobId) := by
  rcases statusHandler_cases jobId advance nowIso db with h |
    ⟨job, hfind, _, _, _, h⟩
  · rw [h]
  · rw [h, hfind]

/-- C1: The job state machine only ever moves a job forward through the
fixed stage sequence of `stagesList`: from any reachable state, one handler
step either leaves a job's stage unchanged or replaces it by the entry
immediately following it in `stagesList`; a job at `complete` or `error` is
never moved; and across any number of steps a changed stage has strictly
larger rank, so no stage is ever revisited. -/
theorem stage_step_forward {db db' : DB} (hdb : Reachable db)
    (hstep : Step db db') :
    (∀ j ∈ db.jobs, ∀ j' ∈ db'.jobs, j'.id = j.id →
      (j'.stage = j.stage ∨
        (j.stage ≠ .complete ∧ j.stage ≠ .error ∧
         stagesList[stageRank j.stage + 1]? = some j'.stage)) ∧
      ((j.stage = .complete ∨ j.stage = .error) → j'.stage = j.stage)) ∧
    (∀ db'', Steps db db'' → ∀ j ∈ db.jobs, ∀ j'' ∈ db''.jobs,
      j''.id = j.id →
      j''.stage = j.stage ∨ stageRank j.stage < stageRank j''.stage) := by
  refine ⟨?_, ?_⟩
  · intro j hj j' hj' hid
    obtain ⟨_, hdisj⟩ := step_pair hdb hstep j hj j' hj' hid
    rcases hdisj with heq | ⟨hc, he, hst, _, _, _⟩
    · rw [heq]
      exact ⟨Or.inl rfl, fun _ => rfl⟩
    · refine ⟨Or.inr ⟨hc, he, ?_⟩, ?_⟩
      · rw [hst]
        exact (stage_index_data j.stage hc he).2.2.2.1
      · intro hterm
        rcases hterm with h' | h'
        · exact absurd h' hc
        · exact absurd h' he
  · intro db'' hsteps j hj j'' hj'' hid
    exact (steps_pair hdb hsteps j hj j'' hj'' hid).2.2.1

theorem stage_step_forward_witness :
    job2Seed.stage = job2Seed.stage ∨
      (job2Seed.stage ≠ .complete ∧ job2Seed.stage ≠ .error ∧
       stagesList[stageRank job2Seed.stage + 1]? = some job2Seed.stage) :=
  ((stage_step_forward Relation.ReflTransGen.refl
      (Step.uploadFiles "nope" [] seedDB)).1 job2Seed
    (by simp [seedDB, seedJobs])
    job2Seed
    (show job2Seed ∈ (uploadFilesHandler "nope" [] seedDB).1.jobs from
      (by simp [seedDB, seedJobs] : job2Seed ∈ seedDB.jobs))
    rfl).1

/-- C2: Across the persisted updates of any reachable run, a job's persisted
progress value is non-decreasing and never exceeds 100. -/
theorem progress_monotone {db db' : DB} (hdb : Reachable db)
    (hsteps : Steps db db') :
    ∀ j ∈ db.jobs, ∀ j' ∈ db'.jobs, j'.id = j.id →
      j.progress ≤ j'.progress ∧ j'.progress ≤ 100 := by
  intro j hj j' hj' hid
  have hm := steps_pair hdb hsteps j hj j' hj' hid
  have hInv' := (steps_track (reachable_inv hdb) hsteps).1
  exact ⟨hm.2.1, (hInv'.1 j' hj').2.1⟩

theorem progress_monotone_witness :
    job2Seed.progress ≤ job2Seed.progress ∧ job2Seed.progress ≤ 100 :=
  progress_monotone Relation.ReflTransGen.refl
    (Relation.ReflTransGen.single (Step.uploadFiles "nope" [] seedDB))
    job2Seed (by simp [seedDB, seedJobs]) job2Seed
    (show job2Seed ∈ (uploadFilesHandler "nope" [] seedDB).1.jobs from
      (by simp [seedDB, seedJobs] : job2Seed ∈ seedDB.jobs))
    rfl

/-- C5: For an accepted generate request (fresh job primary key), the mock
generate endpoint appends exactly one new job row with stage `queued`,
progress 0 and the single log line `Job started`, and responds with that
job's identifier, before anything else has touched the row. -/
theorem generate_initial_job {db : DB} (pid : String) (nowMs : Nat)
    (nowIso : String)
    (hfresh : ∀ j ∈ db.jobs, j.id ≠ "job-" ++ toString nowMs) :
    (generateHandler pid nowMs nowIso db).2 =
      some ("job-" ++ toString nowMs) ∧
    (generateHandler pid nowMs nowIso db).1.jobs =
      db.jobs ++ [newJob pid nowMs nowIso] ∧
    (newJob pid nowMs nowIso).id = "job-" ++ toString nowMs ∧
    (newJob pid nowMs nowIso).stage = .queued ∧
    (newJob pid nowMs nowIso).progress = 0 ∧
    (newJob pid nowMs nowIso).logs = ["Job started"] := by
  have hdup :
      ¬ db.jobs.any (fun j => j.id == ("job-" ++ toString nowMs)) = true := by
    rw [Bool.not_eq_true, List.any_eq_false]
    intro j hj
    simpa using hfresh j hj
  refine ⟨?_, ?_, rfl, rfl, rfl, rfl⟩
  · show (if db.jobs.any (fun j => j.id == ("job-" ++ toString nowMs)) = true
        then _ else _ : DB × Option String).2 = _
    rw [if_neg hdup]
  · show (if db.jobs.any (fun j => j.id == ("job-" ++ toString nowMs)) = true
        then _ else _ : DB × Option String).1.jobs = _
    rw [if_neg hdup]
    rfl

theorem generate_initial_job_witness :
    (generateHandler "proj-2" 99 "t9" seedDB).2 =
      some ("job-" ++ toString 99) ∧
    (generateHandler "proj-2" 99 "t9" seedDB).1.jobs =
      seedDB.jobs ++ [newJob "proj-2" 99 "t9"] ∧
    (newJob "proj-2" 99 "t9").id = "job-" ++ toString 99 ∧
    (newJob "proj-2" 99 "t9").stage = .queued ∧
    (newJob "proj-2" 99 "t9").progress = 0 ∧
    (newJob "proj-2" 99 "t9").logs = ["Job started"] :=
  generate_initial_job "proj-2" 99 "t9" (by decide)

/-- C6: For a reachable state, `GET /api/jobs/:id` responds with exactly the
job row `find?` locates for the identifier — its committed stage, a progress
within `[0, 100]`, and the full ordered log, which is non-empty so a latest
message exists — and responds with a not-found `none` when no job row has
that identifier. -/
theorem status_lookup {db : DB} (hdb : Reachable db) (jobId : String)
    (advance : Bool) (nowIso : String) :
    (db.jobs.find? (fun j => j.id == jobId) = none →
      (statusHandler jobId advance nowIso db).2 = none) ∧
    (∀ job, db.jobs.find? (fun j => j.id == jobId) = some job →
      (statusHandler jobId advance nowIso db).2 = some job ∧
      job.id = jobId ∧ 0 ≤ job.progress ∧ job.progress ≤ 100 ∧
      job.logs ≠ []) := by
  have hInv := reachable_inv hdb
  constructor
  · intro h
    rw [status_snd, h]
  · intro job hfind
    have hmem := List.mem_of_find?_eq_some hfind
    have hOK := hInv.1 job hmem
    exact ⟨by rw [status_snd, hfind], find?_id_eq hfind, hOK.1, hOK.2.1,
      hOK.2.2.2⟩

theorem status_lookup_witness :
    (statusHandler "job-1" true "t4" seedDB).2 = some job1Seed ∧
    job1Seed.id = "job-1" ∧ 0 ≤ job1Seed.progress ∧
    job1Seed.progress ≤ 100 ∧ job1Seed.logs ≠ [] :=
  (status_lookup Relation.ReflTransGen.refl "job-1" true "t4").2 job1Seed rfl

/-- C7: From a reachable state, one handler step either leaves a job row
entirely unchanged or rewrites it in a single row update that moves the
stage to its successor, appends exactly one log line at the end, and never
decreases progress; and across any number of steps the old log is always a
preserved prefix of the new one (no line removed or reordered). -/
theorem stage_transition_atomic {db db' : DB} (hdb : Reachable db)
    (hstep : Step db db') :
    (∀ j ∈ db.jobs, ∀ j' ∈ db'.jobs, j'.id = j.id →
      j' = j ∨ (j'.stage = succStage j.stage ∧
        (∃ line, j'.logs = j.logs ++ [line]) ∧ j.progress ≤ j'.progress)) ∧
    (∀ db'', Steps db db'' → ∀ j ∈ db.jobs, ∀ j'' ∈ db''.jobs,
      j''.id = j.id → ∃ t, j''.logs = j.logs ++ t) := by
  refine ⟨?_, ?_⟩
  · intro j hj j' hj' hid
    obtain ⟨_, hdisj⟩ := step_pair hdb hstep j hj j' hj' hid
    rcases hdisj with heq | ⟨hc, he, hst, hp, _, hlog⟩
    · exact Or.inl heq
    · exact Or.inr ⟨hst, hlog, hp⟩
  · intro db'' hsteps j hj j'' hj'' hid
    exact (steps_pair hdb hsteps j hj j'' hj'' hid).2.2.2.1

theorem stage_transition_atomic_witness :
    job2Seed = job2Seed ∨ (job2Seed.stage = succStage job2Seed.stage ∧
      (∃ line, job2Seed.logs = job2Seed.logs ++ [line]) ∧
      job2Seed.progress ≤ job2Seed.progress) :=
  (stage_transition_atomic Relation.ReflTransGen.refl
      (Step.uploadFiles "nope" [] seedDB)).1 job2Seed
    (by simp [seedDB, seedJobs])
    job2Seed
    (show job2Seed ∈ (uploadFilesHandler "nope" [] seedDB).1.jobs from
      (by simp [seedDB, seedJobs] : job2Seed ∈ seedDB.jobs))
    rfl

/-- C3 counterexample: a single `GET /api/jobs/:id` call on the seeded
database, with the random draw firing, changes the persisted record of
`job-2` from stage `building_slides` to `finalizing`, so the Status
operation is not a pure read. -/
theorem status_read_mutates :
    ((statusHandler "job-2" true "t4" seedDB).1.jobs.find?
        (fun j => j.id == "job-2")).map Job.stage = some .finalizing ∧
    (seedDB.jobs.find? (fun j => j.id == "job-2")).map Job.stage =
      some .building_slides := by decide

/-- C3 (amended): the Status operation responds with the job record as
committed at the time of the read, and it is a pure read whenever the random
draw does not fire or the job is terminal (`complete` or `error`); when the
draw fires on a non-terminal job the read itself advances the job, so it is
not pure in general. -/
theorem status_read_behavior :
    (∀ (jobId nowIso : String) (db : DB),
      statusHandler jobId false nowIso db =
        (db, db.jobs.find? (fun j => j.id == jobId))) ∧
    (∀ (jobId : String) (advance : Bool) (nowIso : String) (db : DB)
      (job : Job), db.jobs.find? (fun j => j.id == jobId) = some job →
      (job.stage = .complete ∨ job.stage = .error) →
      statusHandler jobId advance nowIso db = (db, some job)) ∧
    (∀ (jobId : String) (advance : Bool) (nowIso : String) (db : DB),
      (statusHandler jobId advance nowIso db).2 =
        db.jobs.find? (fun j => j.id == jobId)) := by
  refine ⟨?_, ?_, fun jobId advance nowIso db => status_snd jobId advance nowIso db⟩
  · intro jobId nowIso db
    rcases statusHandler_cases jobId false nowIso db with h |
      ⟨job, _, _, _, hadv, _⟩
    · exact h
    · exact Bool.noConfusion hadv
  · intro jobId advance nowIso db job hfind hterm
    rcases statusHandler_cases jobId advance nowIso db with h |
      ⟨job2, hfind2, hc2, he2, _, h⟩
    · rw [h, hfind]
    · rw [hfind] at hfind2
      cases hfind2
      rcases hterm with h' | h'
      · exact absurd h' hc2
      · exact absurd h' he2

theorem status_read_behavior_witness :
    statusHandler "job-1" true "t4" seedDB = (seedDB, some job1Seed) :=
  status_read_behavior.2.1 "job-1" true "t4" seedDB job1Seed rfl (Or.inl rfl)

/-- C4 counterexample: a project created with no uploaded files at all (so
with no template artifact) is still accepted by the mock generate endpoint,
which creates a `queued` job and returns its identifier — a job identifier
exists for a template-less submission. -/
theorem generate_without_template :
    ((createProjectHandler "NoTemplate Inc" none false 77 "t7"
        seedDB).1.projects.find?
        (fun p => p.id == ("proj-" ++ toString 77))).map Project.files =
      some [] ∧
    (generateHandler ("proj-" ++ toString 77) 78 "t8"
        (createProjectHandler "NoTemplate Inc" none false 77 "t7"
          seedDB).1).2 = some ("job-" ++ toString 78) ∧
    ∃ j ∈ (generateHandler ("proj-" ++ toString 77) 78 "t8"
        (createProjectHandler "NoTemplate Inc" none false 77 "t7"
          seedDB).1).1.jobs,
      j.id = "job-" ++ toString 78 ∧ j.stage = .queued := by decide

/-- C4 (amended): template validation is not enforced by the mock generate
endpoint — it creates a queued job whatever the project's files are.  What
the code does provide: the submission form cannot proceed to generation
unless some uploaded file's name ends in `.pptx` (a name check only, file
contents are never inspected), and the server generate route rejects with a
400 validation error, without creating any job, exactly when its bundled
template file cannot be read. -/
theorem template_validation_behavior :
    (∀ fileNames : List String,
      isStep2Valid fileNames = true ↔
        ∃ n ∈ fileNames, strEndsWith n ".pptx" = true) ∧
    (generateRoutePOST false =
      .error (400, "Template file not found. Please upload a PPTX template.")) ∧
    (∀ (db : DB) (pid : String) (nowMs : Nat) (nowIso : String),
      (∀ j ∈ db.jobs, j.id ≠ "job-" ++ toString nowMs) →
      (generateHandler pid nowMs nowIso db).2 =
        some ("job-" ++ toString nowMs)) := by
  refine ⟨?_, rfl, ?_⟩
  · intro fileNames
    simp [isStep2Valid, List.any_eq_true]
  · intro db pid nowMs nowIso hfresh
    have hdup :
        ¬ db.jobs.any (fun j => j.id == ("job-" ++ toString nowMs)) = true := by
      rw [Bool.not_eq_true, List.any_eq_false]
      intro j hj
      simpa using hfresh j hj
    show (if db.jobs.any (fun j => j.id == ("job-" ++ toString nowMs)) = true
        then _ else _ : DB × Option String).2 = _
    rw [if_neg hdup]

theorem template_validation_behavior_witness :
    (isStep2Valid ["report.pdf", "deck.pptx"] = true ↔
      ∃ n ∈ ["report.pdf", "deck.pptx"], strEndsWith n ".pptx" = true) ∧
    (generateHandler "proj-1" 101 "ta" seedDB).2 =
      some ("job-" ++ toString 101) :=
  ⟨template_validation_behavior.1 ["report.pdf", "deck.pptx"],
   template_validation_behavior.2.2 seedDB "proj-1" 101 "ta" (by decide)⟩

/-- C8 (code bug): the generate route forwards constant placeholder values
`Test Company` / `https://example.com` / `true` to backend job creation, for
every submission — the route does not even receive the submitted company
name, website or flag, so they can never be forwarded.  A user submitting
company name `Acme Ltd` gets a job created for `Test Company`. -/
theorem generate_route_constants :
    generateRoutePOST true =
      .ok { company_name := "Test Company", website := "https://example.com",
            pull_public_data := "true", template_name := "template.pptx" } ∧
    (∀ (b : Bool) (form : BackendJobForm), generateRoutePOST b = .ok form →
      form.company_name = "Test Company" ∧
      form.website = "https://example.com" ∧
      form.pull_public_data = "true") := by
  refine ⟨rfl, ?_⟩
  intro b form h
  cases b
  · exact absurd h (by simp [generateRoutePOST])
  · rw [show generateRoutePOST true = .ok
      { company_name := "Test Company", website := "https://example.com",
        pull_public_data := "true", template_name := "template.pptx" }
      from rfl] at h
    cases h
    exact ⟨rfl, rfl, rfl⟩

theorem generate_route_constants_witness :
    { company_name := "Test Company", website := "https://example.com",
      pull_public_data := "true",
      template_name := "template.pptx" : BackendJobForm }.company_name =
        "Test Company" ∧
    ({ company_name := "Test Company", website := "https://example.com",
       pull_public_data := "true",
       template_name := "template.pptx" : BackendJobForm }).website =
        "https://example.com" ∧
    ({ company_name := "Test Company", website := "https://example.com",
       pull_public_data := "true",
       template_name := "template.pptx" : BackendJobForm }).pull_public_data =
        "true" :=
  generate_route_constants.2 true _ rfl

lemma not_xlsx_and_zip (name : String) :
    ¬(strEndsWith name ".xlsx" = true ∧ strEndsWith name ".zip" = true) := by
  rintro ⟨h1, h2⟩
  rw [strEndsWith, List.isSuffixOf_iff_suffix] at h1 h2
  rcases List.suffix_or_suffix_of_suffix h1 h2 with h | h
  · exact absurd h (by decide)
  · exact absurd h (by decide)

/-- C9: the recorded kind of an uploaded file is decided purely by its name
suffix: `financials` exactly for `.xlsx` names, `documents` exactly for
`.zip` names, and `template` in every remaining case — whatever the file's
actual content. -/
theorem file_kind_by_suffix (name : String) :
    (kindOf name = .financials ↔ strEndsWith name ".xlsx" = true) ∧
    (kindOf name = .documents ↔ strEndsWith name ".zip" = true) ∧
    (kindOf name = .template ↔
      (strEndsWith name ".xlsx" = false ∧ strEndsWith name ".zip" = false)) := by
  by_cases h1 : strEndsWith name ".xlsx" = true
  · have h2 : strEndsWith name ".zip" = false := by
      rcases h : strEndsWith name ".zip" with _ | _
      · rfl
      · exact absurd ⟨h1, h⟩ (not_xlsx_and_zip name)
    simp [kindOf, h1, h2]
  · rw [Bool.not_eq_true] at h1
    by_cases h2 : strEndsWith name ".zip" = true
    · simp [kindOf, h1, h2]
    · rw [Bool.not_eq_true] at h2
      simp [kindOf, h1, h2]

lemma jobId_inj_symm : Symmetric (fun a b : Project =>
    a.jobId = none ∨ a.jobId ≠ b.jobId) := by
  intro a b h
  rcases h with h | h
  · rcases hb : b.jobId with _ | x
    · exact Or.inl rfl
    · exact Or.inr (by rw [h]; simp)
  · exact Or.inr (Ne.symm h)

/-- In a reachable state, two projects pointing at the same job are the same
project. -/
lemma proj_jobId_inj {db : DB} (hInv : Inv db) {a b : Project}
    (ha : a ∈ db.projects) (hb : b ∈ db.projects) {x : String}
    (hax : a.jobId = some x) (hbx : b.jobId = some x) : a = b := by
  by_contra hne
  rcases List.Pairwise.forall jobId_inj_symm hInv.2.2.2.1 ha hb hne with h | h
  · rw [hax] at h
    exact Option.noConfusion h
  · rw [hax, hbx] at h
    exact h rfl

/-- The project rewrite `POST /api/projects/:id/generate` applies to the
owning project. -/
def generateProjUpd (nowMs : Nat) : Project → Project := fun q =>
  { q with jobId := some ("job-" ++ toString nowMs),
           status := ProjectStatus.processing }

/-- The project rewrite the status handler applies when a job reaches
`complete`. -/
def completeProjUpd : Project → Project := fun q =>
  { q with status := ProjectStatus.complete }

/-- C10: the owning project's status tracks its job's lifecycle: the
generate handler sets the project to `processing` and points it at the
queued job it creates, in the same handler run; a status read that advances
a job from `finalizing` to `complete` sets the project whose `jobId`
matches to `complete` in that same run; and in every reachable state a
`complete` project points at a `complete` job. -/
theorem project_status_tracks_job :
    (∀ (db : DB) (pid : String) (nowMs : Nat) (nowIso : String),
      (∀ j ∈ db.jobs, j.id ≠ "job-" ++ toString nowMs) →
      (∃ p ∈ db.projects, p.id = pid) →
      (∃ p' ∈ (generateHandler pid nowMs nowIso db).1.projects,
        p'.id = pid ∧ p'.status = .processing ∧
        p'.jobId = some ("job-" ++ toString nowMs)) ∧
      ∃ j ∈ (generateHandler pid nowMs nowIso db).1.jobs,
        j.id = "job-" ++ toString nowMs ∧ j.stage = .queued) ∧
    (∀ (db : DB) (jid nowIso : String) (job : Job), Reachable db →
      db.jobs.find? (fun j => j.id == jid) = some job →
      job.stage = .finalizing →
      ∀ p ∈ db.projects, p.jobId = some jid →
        ∃ p' ∈ (statusHandler jid true nowIso db).1.projects,
          p'.id = p.id ∧ p'.status = .complete) ∧
    (∀ db : DB, Reachable db → ∀ p ∈ db.projects, p.status = .complete →
      ∃ j ∈ db.jobs, p.jobId = some j.id ∧ j.stage = .complete) := by
  refine ⟨?_, ?_, ?_⟩
  · intro db pid nowMs nowIso hfresh hex
    obtain ⟨p, hp, hpid⟩ := hex
    have hdup :
        ¬ db.jobs.any (fun j => j.id == ("job-" ++ toString nowMs)) = true := by
      rw [Bool.not_eq_true, List.any_eq_false]
      intro j hj
      simpa using hfresh j hj
    have hgen : (generateHandler pid nowMs nowIso db).1.projects =
        updateFirst (fun q => q.id == pid) (generateProjUpd nowMs)
          db.projects := by
      show (if db.jobs.any (fun j => j.id == ("job-" ++ toString nowMs)) = true
          then _ else _ : DB × Option String).1.projects = _
      rw [if_neg hdup]
      rfl
    have hjobs : (generateHandler pid nowMs nowIso db).1.jobs =
        db.jobs ++ [newJob pid nowMs nowIso] := by
      show (if db.jobs.any (fun j => j.id == ("job-" ++ toString nowMs)) = true
          then _ else _ : DB × Option String).1.jobs = _
      rw [if_neg hdup]
      rfl
    have hs : (db.projects.find? (fun q => q.id == pid)).isSome := by
      rw [List.find?_isSome]
      exact ⟨p, hp, by simp [hpid]⟩
    obtain ⟨x, hx⟩ := Option.isSome_iff_exists.mp hs
    have hxid : x.id = pid := by simpa using List.find?_some hx
    obtain ⟨l, r, hxs, hl, hpx, hupd⟩ := updateFirst_split
      (fun q => q.id == pid) (generateProjUpd nowMs) db.projects x hx
    constructor
    · refine ⟨generateProjUpd nowMs x, ?_, hxid, rfl, rfl⟩
      rw [hgen, hupd]
      exact List.mem_append.mpr (Or.inr (List.mem_cons_self _ _))
    · refine ⟨newJob pid nowMs nowIso, ?_, rfl, rfl⟩
      rw [hjobs]
      exact List.mem_append.mpr (Or.inr (List.mem_singleton.mpr rfl))
  · intro db jid nowIso job hdb hfind hfin p hp hpjob
    have hc : job.stage ≠ .complete := by rw [hfin]; simp
    have he : job.stage ≠ .error := by rw [hfin]; simp
    rw [statusHandler_advance jid nowIso hfind hc he]
    have hsc : succStage job.stage = .complete := by rw [hfin]; rfl
    have hproj : (advancedDB jid job nowIso db).projects =
        updateFirst (fun q => q.jobId == some jid) completeProjUpd
          db.projects := by
      simp only [advancedDB, if_pos hsc]
      rfl
    have hs : (db.projects.find? (fun q => q.jobId == some jid)).isSome := by
      rw [List.find?_isSome]
      exact ⟨p, hp, by simp [hpjob]⟩
    obtain ⟨x, hx⟩ := Option.isSome_iff_exists.mp hs
    have hxj : x.jobId = some jid := by simpa using List.find?_some hx
    have hxm : x ∈ db.projects := List.mem_of_find?_eq_some hx
    have hxp : x = p := proj_jobId_inj (reachable_inv hdb) hxm hp hxj hpjob
    obtain ⟨l, r, hxs, hl, hpx, hupd⟩ := updateFirst_split
      (fun q => q.jobId == some jid) completeProjUpd db.projects x hx
    refine ⟨completeProjUpd x, ?_, ?_, rfl⟩
    · rw [hproj, hupd]
      exact List.mem_append.mpr (Or.inr (List.mem_cons_self _ _))
    · show x.id = p.id
      rw [hxp]
  · intro db hdb p hp hps
    exact (reachable_inv hdb).2.2.2.2.2 p hp hps

theorem project_status_tracks_job_witness :
    ∃ j ∈ seedDB.jobs, proj1Seed.jobId = some j.id ∧ j.stage = .complete :=
  project_status_tracks_job.2.2 seedDB Relation.ReflTransGen.refl proj1Seed
    (by simp [seedDB, seedProjects]) rfl

end Celerentis
